import Mathlib

/-!
Shallow embedding of the `probabilistic` Rust library (Bloom filter, Cuckoo
filter, Count-Min sketch, HyperLogLog, LinearCount, packed bit vector and the
shared multi-hash generator) together with proofs and refutations of the
specification claims.

Machine integers are modelled as `Nat` with explicit reduction `% 2^w` where
the Rust code uses wrapping arithmetic.  Operations that can panic in a debug
build (shift by an amount not smaller than the bit width, out-of-bounds
`FixedBitSet::put`, failed assertions, division by zero) are modelled as
`Option`/`Except` values, `none`/`error` standing for the panic.  Floating
point expressions are modelled over `ℝ` (the formulas of the spec are exact
real formulas).  Hash functions are injected, so the embeddings take the
relevant base hash values (64-bit digests) as parameters.
-/

/-- Modulus 2^64 of wrapping `u64` arithmetic. -/
def U64 : ℕ := 2 ^ 64

/-- Modulus 2^32 of wrapping `u32` arithmetic. -/
def U32 : ℕ := 2 ^ 32

/-! ### src/hash.rs — `Hashes`, the enhanced double hashing sequence

`Hashes::new(item, modulus, rounds, build_hasher)` lazily yields `rounds`
values.  For `i = 1, 2` the value is the base hash of the item salted with
`i`, reduced `mod modulus`; for `i ≥ 3` the internal pair `(h1, h2)` is
rolled as `(h1, h2) := (h2, h1.wrapping_add(h2.wrapping_mul(i)))` and the new
`h2` is emitted reduced `mod modulus`.  The two base hashes are parameters
`b1`, `b2` here (the injected hasher applied to the item with salts 1, 2). -/

/-- Tail of the hash sequence from the state `(a, b) = (h1, h2)` of the Rust
iterator, with `i` the next round number (`i ≥ 3` on every call) and
`remaining` the number of rounds still to emit. -/
def hashesAux (a b : ℕ) (i : ℕ) (remaining : ℕ) (m : ℕ) : List ℕ :=
  match remaining with
  | 0 => []
  | r + 1 =>
    let h := (a + b * i) % U64
    (h % m) :: hashesAux b h (i + 1) r m

/-- The full list of values produced by consuming `Hashes::new(item, m, k, _)`
where `b1`, `b2` are the base hashes of the item with salts 1 and 2. -/
def hashesList (b1 b2 : ℕ) (m : ℕ) (k : ℕ) : List ℕ :=
  match k with
  | 0 => []
  | 1 => [b1 % m]
  | r + 2 => (b1 % m) :: (b2 % m) :: hashesAux b1 b2 3 r m

/-- Reference form of the unreduced hash sequence: `hPairs b1 b2 n` is the
pair `(h_(n+1), h_(n+2))` of consecutive unreduced 64-bit hashes, where
`h_1 = b1`, `h_2 = b2` and `h_(i) = (h_(i-2) + h_(i-1)·i) mod 2^64` for
`i ≥ 3`. -/
def hPairs (b1 b2 : ℕ) : ℕ → ℕ × ℕ
  | 0 => (b1, b2)
  | n + 1 =>
    let p := hPairs b1 b2 n
    (p.2, (p.1 + p.2 * (n + 3)) % U64)

/-- The `n`-th unreduced hash (`n ≥ 1`): `hNth b1 b2 1 = b1`,
`hNth b1 b2 2 = b2`, and the enhanced-double-hashing recurrence above. -/
def hNth (b1 b2 : ℕ) (n : ℕ) : ℕ := (hPairs b1 b2 (n - 1)).1

theorem hPairs_fst_succ (b1 b2 n : ℕ) :
    (hPairs b1 b2 (n + 1)).1 = (hPairs b1 b2 n).2 := by
  simp [hPairs]

theorem hNth_one (b1 b2 : ℕ) : hNth b1 b2 1 = b1 := rfl

theorem hNth_two (b1 b2 : ℕ) : hNth b1 b2 2 = b2 := rfl

theorem hNth_add_one (b1 b2 n : ℕ) : hNth b1 b2 (n + 1) = (hPairs b1 b2 n).1 := by
  simp [hNth]

theorem hNth_recurrence (b1 b2 n : ℕ) :
    hNth b1 b2 (n + 3) = (hNth b1 b2 (n + 1) + hNth b1 b2 (n + 2) * (n + 3)) % U64 := by
  rw [show n + 3 = (n + 2) + 1 from rfl, hNth_add_one, hPairs_fst_succ,
    show n + 2 = (n + 1) + 1 from rfl, hNth_add_one, hNth_add_one, hPairs_fst_succ]
  simp [hPairs]

theorem hashesAux_length (a b i r m : ℕ) : (hashesAux a b i r m).length = r := by
  induction r generalizing a b i with
  | zero => rfl
  | succ r ih => simp [hashesAux, ih]

theorem hashesList_length (b1 b2 m k : ℕ) : (hashesList b1 b2 m k).length = k := by
  match k with
  | 0 => rfl
  | 1 => rfl
  | r + 2 => simp [hashesList, hashesAux_length]

theorem hashesAux_mem_lt (a b i r m : ℕ) (hm : 0 < m) :
    ∀ x ∈ hashesAux a b i r m, x < m := by
  induction r generalizing a b i with
  | zero => intro x hx; simp [hashesAux] at hx
  | succ r ih =>
    intro x hx
    simp only [hashesAux, List.mem_cons] at hx
    rcases hx with h | h
    · subst h; exact Nat.mod_lt _ hm
    · exact ih _ _ _ x h

theorem hashesList_mem_lt (b1 b2 m k : ℕ) (hm : 0 < m) :
    ∀ x ∈ hashesList b1 b2 m k, x < m := by
  match k with
  | 0 => intro x hx; simp [hashesList] at hx
  | 1 =>
    intro x hx
    simp only [hashesList, List.mem_singleton] at hx
    subst hx; exact Nat.mod_lt _ hm
  | r + 2 =>
    intro x hx
    simp only [hashesList, List.mem_cons] at hx
    rcases hx with h | h | h
    · subst h; exact Nat.mod_lt _ hm
    · subst h; exact Nat.mod_lt _ hm
    · exact hashesAux_mem_lt _ _ _ _ _ hm x h

/-- Each entry of the tail produced from the rolled state at `hPairs n`
is the corresponding unreduced hash reduced `mod m`. -/
theorem hashesAux_getD (m : ℕ) :
    ∀ r n j, j < r →
      (hashesAux (hPairs b1 b2 n).1 (hPairs b1 b2 n).2 (n + 3) r m).getD j 0 =
        (hPairs b1 b2 (n + j + 2)).1 % m := by
  intro r
  induction r with
  | zero => intro n j hj; omega
  | succ r ih =>
    intro n j hj
    match j with
    | 0 =>
      show ((hPairs b1 b2 n).1 + (hPairs b1 b2 n).2 * (n + 3)) % U64 % m = _
      have : (hPairs b1 b2 (n + 0 + 2)).1 =
          ((hPairs b1 b2 n).1 + (hPairs b1 b2 n).2 * (n + 3)) % U64 := by
        show (hPairs b1 b2 (n + 2)).1 = _
        rw [show n + 2 = (n + 1) + 1 from rfl, hPairs_fst_succ]
        simp [hPairs]
      rw [this]
    | j + 1 =>
      show (hashesAux (hPairs b1 b2 n).2
          (((hPairs b1 b2 n).1 + (hPairs b1 b2 n).2 * (n + 3)) % U64)
          (n + 3 + 1) r m).getD j 0 = _
      have h1 : (hPairs b1 b2 n).2 = (hPairs b1 b2 (n + 1)).1 :=
        (hPairs_fst_succ b1 b2 n).symm
      have h2 : ((hPairs b1 b2 n).1 + (hPairs b1 b2 n).2 * (n + 3)) % U64 =
          (hPairs b1 b2 (n + 1)).2 := rfl
      rw [h2, h1, show n + 3 + 1 = (n + 1) + 3 from by omega]
      rw [ih (n + 1) j (by omega)]
      rw [show n + 1 + j + 2 = n + (j + 1) + 2 from by omega]

/-- Every entry of the code's hash list is the corresponding unreduced hash
of the reference recurrence, reduced `mod m`. -/
theorem hashesList_getD (b1 b2 m k : ℕ) :
    ∀ j, j < k → (hashesList b1 b2 m k).getD j 0 = hNth b1 b2 (j + 1) % m := by
  intro j hj
  match k, j with
  | 1, 0 => rfl
  | r + 2, 0 => rfl
  | r + 2, 1 => rfl
  | r + 2, (j + 2) =>
    have aux := @hashesAux_getD b1 b2 m r 0 j (by omega)
    rw [show (0 : ℕ) + j + 2 = j + 2 from by omega] at aux
    exact aux

/-- C8: the enhanced-double-hashing multi-hash sequence for base hashes
`b1`, `b2` (item hashed with salts 1 and 2), modulus `m > 0` and `k` rounds
yields exactly `k` values, each in `[0, m)`; the first is `b1 mod m`, the
second is `b2 mod m`, and for `i ≥ 3` the `i`-th value is
`(h_(i-2) + h_(i-1)·i) mod 2^64 mod m` on the unreduced hashes; the sequence
is a deterministic function of its arguments (it is a pure function here). -/
theorem hashes_enhanced_double_hashing (b1 b2 m k : ℕ) (hm : 0 < m) :
    (hashesList b1 b2 m k).length = k ∧
    (∀ x ∈ hashesList b1 b2 m k, x < m) ∧
    (0 < k → (hashesList b1 b2 m k).getD 0 0 = b1 % m) ∧
    (1 < k → (hashesList b1 b2 m k).getD 1 0 = b2 % m) ∧
    (∀ i, 3 ≤ i → i ≤ k →
      (hashesList b1 b2 m k).getD (i - 1) 0 =
        (hNth b1 b2 (i - 2) + hNth b1 b2 (i - 1) * i) % U64 % m) := by
  refine ⟨hashesList_length b1 b2 m k, hashesList_mem_lt b1 b2 m k hm, ?_, ?_, ?_⟩
  · intro hk
    rw [hashesList_getD b1 b2 m k 0 hk, hNth_one]
  · intro hk
    rw [hashesList_getD b1 b2 m k 1 hk, hNth_two]
  · intro i h3 hik
    rw [hashesList_getD b1 b2 m k (i - 1) (by omega),
      show i - 1 + 1 = i from by omega]
    obtain ⟨n, rfl⟩ : ∃ n, i = n + 3 := ⟨i - 3, by omega⟩
    rw [hNth_recurrence, show n + 3 - 2 = n + 1 from by omega,
      show n + 3 - 1 = n + 2 from by omega]

/-- Witness for C8 at a concrete input. -/
theorem hashes_enhanced_double_hashing_witness :
    (hashesList 10 20 7 5).getD 4 0 =
      (hNth 10 20 3 + hNth 10 20 4 * 5) % U64 % 7 :=
  (hashes_enhanced_double_hashing 10 20 7 5 (by decide)).2.2.2.2 5 (by decide)
    (by decide)

/-! ### src/bit_vec.rs — `BitVec<T, N>`, packed fixed-width fields

The buffer is a vector of bytes (each `< 256`); a field of `N` bits starts at
bit offset `N·index`.  `B` is the bit width of the storage type `T`
(8 for `u8`, 32 for `u32`, ...).  Plain Rust shifts on `u8` panic in a debug
build when the shift amount is `≥ 8`; they are modelled as `Option`,
`none` standing for the panic.  The unbounded shift helper `ushl`
(`unbounded_shl`) returns 0 for large shifts and is total. -/

/-- Checked `u8` right shift: Rust `x >> s` on `u8` panics (debug) for
`s ≥ 8`. -/
def shr8 (x s : ℕ) : Option ℕ := if s < 8 then some (x >>> s) else none

/-- Bitwise `u8` complement `!x` (operand is a byte value `< 256`). -/
def not8 (x : ℕ) : ℕ := 255 ^^^ x

/-- Unbounded shift `ushl` on a `B`-bit unsigned type: `unbounded_shl`, 0 when the shift
amount reaches the width, otherwise an ordinary truncating shift. -/
def ushl (B x s : ℕ) : ℕ := if s < B then (x <<< s) % 2 ^ B else 0

/-- Byte index and bit offset of field `index`:
`BitVec::index_and_offset`. -/
def bvIndexAndOffset (N index : ℕ) : ℕ × ℕ := (N * index / 8, N * index % 8)

/-- The low mask `(T::one() << N) - 1`: `BitVec::lsb_mask`.  The shift
panics when `N` equals the full width `B` (Rust `1 << B` overflows). -/
def lsbMask (B N : ℕ) : Option ℕ := if N < B then some (2 ^ N - 1) else none

/-- Model of `BitVec::get_unchecked` over a byte buffer: accumulate
`ceil(N/8)` byte pairs with shifts, then mask to `N` bits.  Total except for
the mask computation: the byte shifts here are `>> offset` with
`offset < 8 ≤ B` and `ushl`, which never panic. -/
def bvGet (B N : ℕ) (buf : List ℕ) (index : ℕ) : Option ℕ :=
  (lsbMask B N).map fun mask =>
    let p := bvIndexAndOffset N index
    let value := (List.range ((N + 7) / 8)).foldl
      (fun value i =>
        let value := value ||| ushl B (buf.getD (p.1 + i) 0 >>> p.2) (8 * i)
        value ||| ushl B (buf.getD (p.1 + i + 1) 0) (8 * i + (8 - p.2)))
      0
    value &&& mask

/-- Model of `BitVec::set_unchecked` over a byte buffer.  For each of the
`ceil(N/8)` byte pairs the low byte is rewritten with shifts `< 8` (total)
and the high byte with `u8` right shifts by `8 - offset`, which panic when
`offset = 0`. -/
def bvSet (B N : ℕ) (buf : List ℕ) (index value : ℕ) : Option (List ℕ) :=
  (lsbMask B N).bind fun mask =>
    let value := value &&& mask
    let p := bvIndexAndOffset N index
    (List.range ((N + 7) / 8)).foldl
      (fun acc i => acc.bind fun buf =>
        let vi := value >>> (8 * i)
        let maski := mask >>> (8 * i)
        let lsb := buf.getD (p.1 + i) 0
        let lsb' := (lsb &&& not8 (((maski % 256) <<< p.2) % 256)) |||
          (((vi % 256) <<< p.2) % 256)
        let buf := buf.set (p.1 + i) lsb'
        (shr8 (maski % 256) (8 - p.2)).bind fun mshift =>
        (shr8 (vi % 256) (8 - p.2)).map fun vshift =>
          let msb := buf.getD (p.1 + i + 1) 0
          buf.set (p.1 + i + 1) ((msb &&& not8 mshift) ||| vshift))
      (some buf)

/-- The concrete width-5 buffer of the spec's packed-array scenario (also the
repository's own `make_bit_vec_u8` test fixture). -/
def scenarioBuf : List ℕ := [0b10111000, 0b11000100, 0b10110010, 0b00000001, 0]

/-- Sanity: the embedding reproduces the spec's concrete get scenario
(width 5, 5 elements). -/
theorem bvGet_scenario :
    (List.range 5).map (bvGet 8 5 scenarioBuf) =
      [some 0b11000, some 0b00101, some 0b10001, some 0b00101, some 0b11011] := by
  decide

/-- Sanity: the embedding reproduces the spec's concrete set scenario
(width 5, `set(2, 0b01011)`, a field not at a byte boundary). -/
theorem bvSet_scenario :
    bvSet 8 5 scenarioBuf 2 0b01011 =
      some [0b10111000, 0b10101100, 0b10110010, 0b00000001, 0] := by
  decide

/-- C3 (code bug): the packed-array round-trip fails for byte-aligned fields.
`BitVec::set_unchecked` shifts the `u8`-cast mask and value right by
`8 - offset`; for a field at bit offset 0 (for example index 0 of the spec's
own width-5 scenario) that is a `u8` shift by 8, which panics in a debug
build (and in a release build overwrites the following byte, corrupting the
neighbouring fields).  The claim's round-trip therefore fails at every
byte-aligned field; `get` avoids the same trap by using unbounded shifts. -/
theorem bitvec_set_byte_aligned_panics :
    bvSet 8 5 scenarioBuf 0 0b00011 = none ∧
    bvGet 8 5 scenarioBuf 0 = some 0b11000 := by
  decide

/-! ### Bloom filters — src/set_membership/bloom.rs and src/bloom.rs

Both store a `FixedBitSet` of `num_bits` bits and a hash count `num_hashes`.
`FixedBitSet::put` returns the previous bit and panics when the index is out
of bounds; `FixedBitSet::contains` returns `false` out of bounds.  The
variants differ in how a raw 64-bit hash is mapped to a bit position:
src/set_membership/bloom.rs reduces it modulo `bits.len()` (the bitmap size),
src/bloom.rs reduces it modulo `num_hashes`. -/

/-- Model of `FixedBitSet::put`: set bit `i`, returning its previous value; panics
(`none`) when `i` is out of bounds. -/
def fbsPut (bits : List Bool) (i : ℕ) : Option (Bool × List Bool) :=
  if i < bits.length then some (bits.getD i false, bits.set i true) else none

/-- The fold at the heart of both inserts: `put` every position in turn,
accumulating the conjunction of the previous bit values with
non-short-circuiting `&`. -/
def putAll (bits : List Bool) (ps : List ℕ) (acc : Bool) :
    Option (Bool × List Bool) :=
  match ps with
  | [] => some (acc, bits)
  | p :: ps => (fbsPut bits p).bind fun pr => putAll pr.2 ps (acc && pr.1)

/-- Modelled from the spec: the function `crate::hash::iter_hashes` used by
src/set_membership/bloom.rs is not present under src/ (src/hash.rs only
defines the `Hashes` iterator, which already reduces modulo a given modulus).
Per spec §3 strategy (a) it is the enhanced-double-hashing stream of raw
64-bit values `h1, h2, h_i = h_(i-2) + i·h_(i-1)` (wrapping); the call sites
in src/set_membership/bloom.rs take `num_hashes` of them and reduce each
modulo `bits.len()`, so the bit positions of an item are exactly
`hashesList b1 b2 numBits numHashes`. -/
def bloomPositions (numBits numHashes b1 b2 : ℕ) : List ℕ :=
  hashesList b1 b2 numBits numHashes

/-- Model of `BloomFilter::insert` of src/set_membership/bloom.rs: put all positions,
return whether at least one was previously unset, together with the new
bitmap; `none` is a panic. -/
def bloomInsert (numBits numHashes b1 b2 : ℕ) (bits : List Bool) :
    Option (Bool × List Bool) :=
  (putAll bits (bloomPositions numBits numHashes b1 b2) true).map
    fun r => (!r.1, r.2)

/-- Model of `BloomFilter::contains` of src/set_membership/bloom.rs. -/
def bloomContains (numBits numHashes b1 b2 : ℕ) (bits : List Bool) : Bool :=
  (bloomPositions numBits numHashes b1 b2).all fun p => bits.getD p false

/-- Bit positions used by src/bloom.rs: the same raw stream, but reduced
modulo `num_hashes` instead of modulo the bitmap size. -/
def bloomPositionsB (numHashes b1 b2 : ℕ) : List ℕ :=
  hashesList b1 b2 numHashes numHashes

/-- Model of `BloomFilter::insert` of src/bloom.rs. -/
def bloomInsertB (numHashes b1 b2 : ℕ) (bits : List Bool) :
    Option (Bool × List Bool) :=
  (putAll bits (bloomPositionsB numHashes b1 b2) true).map
    fun r => (!r.1, r.2)

/-- Model of `BloomFilter::contains` of src/bloom.rs. -/
def bloomContainsB (numHashes b1 b2 : ℕ) (bits : List Bool) : Bool :=
  (bloomPositionsB numHashes b1 b2).all fun p => bits.getD p false

/-- C2 (code bug): src/bloom.rs reduces hash values modulo `num_hashes`
instead of modulo `num_bits` (its sibling src/set_membership/bloom.rs
correctly uses the bitmap length).  On a filter with `num_bits = 1`,
`num_hashes = 2` (both positive, as the claim requires) and an item whose
first base hash is odd, the first bit position is `1 ≥ num_bits`, so
`FixedBitSet::put` panics inside `insert`: `contains` cannot return `true`
immediately after `insert`, refuting the claim for this variant. -/
theorem bloom_mod_num_hashes_panics :
    bloomInsertB 2 1 0 (List.replicate 1 false) = none ∧
    bloomPositionsB 2 1 0 = [1, 0] := by
  decide

theorem getD_set_true (bits : List Bool) (p i : ℕ) (hp : p < bits.length) :
    (bits.set p true).getD i false = if i = p then true else bits.getD i false := by
  by_cases h : i = p
  · subst h
    simp [List.getD_eq_getElem?_getD, List.getElem?_set_self hp]
  · simp [List.getD_eq_getElem?_getD, List.getElem?_set_ne (show p ≠ i from fun e => h e.symm), h]

/-- Running `put` over a list of in-bounds positions succeeds, keeps the
length, never clears a bit, and leaves every visited position set. -/
theorem putAll_spec :
    ∀ (ps : List ℕ) (bits : List Bool) (acc : Bool),
      (∀ p ∈ ps, p < bits.length) →
      ∃ r, putAll bits ps acc = some r ∧
        r.2.length = bits.length ∧
        (∀ i, bits.getD i false = true → r.2.getD i false = true) ∧
        (∀ p ∈ ps, r.2.getD p false = true) := by
  intro ps
  induction ps with
  | nil =>
    intro bits acc _
    exact ⟨(acc, bits), rfl, rfl, fun i h => h, fun p hp => by simp at hp⟩
  | cons p ps ih =>
    intro bits acc hbound
    have hp : p < bits.length := hbound p (List.mem_cons_self p ps)
    have hstep : fbsPut bits p = some (bits.getD p false, bits.set p true) := by
      simp [fbsPut, hp]
    have hbound' : ∀ q ∈ ps, q < (bits.set p true).length := by
      intro q hq
      rw [List.length_set]
      exact hbound q (List.mem_cons_of_mem p hq)
    obtain ⟨r, hr, hrl, hpres, hset⟩ :=
      ih (bits.set p true) (acc && bits.getD p false) hbound'
    refine ⟨r, ?_, by rw [hrl, List.length_set], ?_, ?_⟩
    · show (fbsPut bits p).bind _ = some r
      rw [hstep]
      exact hr
    · intro i hi
      apply hpres
      rw [getD_set_true bits p i hp]
      rcases eq_or_ne i p with h | h
      · simp [h]
      · rw [if_neg h]; exact hi
    · intro q hq
      rcases List.mem_cons.mp hq with h | h
      · subst h
        apply hpres
        rw [getD_set_true bits q q hp]
        simp
      · exact hset q h

/-- A sequence of inserts into the src/set_membership/bloom.rs filter, each
item given by its two base hashes. -/
def bloomInsertSeq (numBits numHashes : ℕ) (items : List (ℕ × ℕ))
    (bits : List Bool) : Option (List Bool) :=
  match items with
  | [] => some bits
  | y :: rest => (bloomInsert numBits numHashes y.1 y.2 bits).bind
      fun r => bloomInsertSeq numBits numHashes rest r.2

theorem bloomInsertSeq_spec (numBits numHashes : ℕ) (hm : 0 < numBits) :
    ∀ (items : List (ℕ × ℕ)) (bits : List Bool), bits.length = numBits →
      ∃ bits', bloomInsertSeq numBits numHashes items bits = some bits' ∧
        bits'.length = numBits ∧
        (∀ i, bits.getD i false = true → bits'.getD i false = true) := by
  intro items
  induction items with
  | nil => intro bits hlen; exact ⟨bits, rfl, hlen, fun i h => h⟩
  | cons y rest ih =>
    intro bits hlen
    have hbound : ∀ p ∈ bloomPositions numBits numHashes y.1 y.2,
        p < bits.length := by
      intro p hp
      rw [hlen]
      exact hashesList_mem_lt _ _ _ _ hm p hp
    obtain ⟨r, hr, hrl, hpres, _⟩ := putAll_spec _ bits true hbound
    obtain ⟨bits', hb, hbl, hpres'⟩ := ih r.2 (by rw [hrl, hlen])
    refine ⟨bits', ?_, hbl, fun i h => hpres' i (hpres i h)⟩
    simp [bloomInsertSeq, bloomInsert, hr, hb]

/-- Supporting result for C2 (the corrected variant): the
src/set_membership/bloom.rs Bloom filter has no false negatives.  For any
filter with `num_bits > 0`, inserting an item (base hashes `b1`, `b2`)
succeeds, `contains` is `true` immediately afterwards, and it remains `true`
after inserting any further sequence of items — bits are only ever set,
never cleared. -/
theorem bloom_no_false_negatives_main_variant (numBits numHashes b1 b2 : ℕ)
    (items : List (ℕ × ℕ)) (bits : List Bool)
    (hm : 0 < numBits) (hlen : bits.length = numBits) :
    ∃ r bits', bloomInsert numBits numHashes b1 b2 bits = some r ∧
      bloomContains numBits numHashes b1 b2 r.2 = true ∧
      bloomInsertSeq numBits numHashes items r.2 = some bits' ∧
      bloomContains numBits numHashes b1 b2 bits' = true := by
  have hbound : ∀ p ∈ bloomPositions numBits numHashes b1 b2,
      p < bits.length := by
    intro p hp
    rw [hlen]
    exact hashesList_mem_lt _ _ _ _ hm p hp
  obtain ⟨r, hr, hrl, _, hset⟩ := putAll_spec _ bits true hbound
  obtain ⟨bits', hb, _, hpres'⟩ :=
    bloomInsertSeq_spec numBits numHashes hm items r.2 (by rw [hrl, hlen])
  refine ⟨(!r.1, r.2), bits', by simp [bloomInsert, hr], ?_, hb, ?_⟩
  · rw [bloomContains, List.all_eq_true]
    intro p hp
    exact hset p hp
  · rw [bloomContains, List.all_eq_true]
    intro p hp
    exact hpres' p (hset p hp)

/-! ### BloomFilter::with_probability (src/set_membership/bloom.rs) and
BloomFilter::from_probability (src/bloom.rs) — identical code

Floating point is modelled over ℝ with the exact natural logarithm; the sign
of the computed expressions is exact in IEEE arithmetic as well (a product
and quotient of finite nonzero values of known signs), so the model is
faithful for the facts proved here.  Rust's `as usize` cast of an `f64`
saturates: every negative value, including `-0.0`, casts to 0. -/

/-- Rust `x.ceil() as usize` for a real `x`: the ceiling, saturated to 0 for
negative inputs. -/
noncomputable def f64CeilAsUsize (x : ℝ) : ℕ := (⌈x⌉).toNat

/-- Model of `BloomFilter::new`: asserts `num_bits > 0` and `num_hashes > 0`, panics
(`none`) otherwise. -/
def bloomNew (numBits numHashes : ℕ) : Option (ℕ × ℕ) :=
  if 0 < numBits ∧ 0 < numHashes then some (numBits, numHashes) else none

/-- Model of `BloomFilter::with_probability(num_items, probability)`: asserts
`num_items > 0` and `probability ∈ (0, 1)`, computes
`bits = (-1 · n · p / (ln 2 · ln 2)).ceil() as usize` and
`num_hashes = (-1 · p / ln 2).ceil() as usize`, and delegates to `new`. -/
noncomputable def withProbability (numItems : ℕ) (p : ℝ) : Option (ℕ × ℕ) :=
  if 0 < numItems ∧ 0 < p ∧ p < 1 then
    bloomNew (f64CeilAsUsize (-1 * numItems * p / (Real.log 2 * Real.log 2)))
      (f64CeilAsUsize (-1 * p / Real.log 2))
  else none

/-- C7 (code bug): `with_probability` never constructs a filter.  The code
computes `-n·p/ln(2)²` and `-p/ln 2` (the claim's and the standard formulas
have `ln p`, not `p`), which are strictly negative for every `n > 0` and
`p ∈ (0, 1)`; both ceilings cast-saturate to 0 and `new` panics on its
`num_bits > 0` assertion.  Construction therefore fails for every valid
input, refuting the claim that it succeeds. -/
theorem bloom_with_probability_always_panics (n : ℕ) (p : ℝ)
    (hn : 0 < n) (hp0 : 0 < p) (hp1 : p < 1) :
    withProbability n p = none := by
  have hlog : 0 < Real.log 2 := Real.log_pos (by norm_num)
  have hnp : 0 < (n : ℝ) * p := mul_pos (by exact_mod_cast hn) hp0
  have hneg : -1 * (n : ℝ) * p / (Real.log 2 * Real.log 2) < 0 := by
    apply div_neg_of_neg_of_pos
    · nlinarith
    · positivity
  have hbits : f64CeilAsUsize (-1 * (n : ℝ) * p / (Real.log 2 * Real.log 2)) = 0 := by
    rw [f64CeilAsUsize]
    apply Int.toNat_of_nonpos
    apply Int.ceil_le.mpr
    push_cast
    exact le_of_lt hneg
  rw [withProbability, if_pos ⟨hn, hp0, hp1⟩, hbits, bloomNew]
  simp

/-- Witness for C7 at the concrete input `n = 100`, `p = 1/2`. -/
theorem bloom_with_probability_always_panics_witness :
    withProbability 100 (1 / 2) = none :=
  bloom_with_probability_always_panics 100 (1 / 2) (by norm_num) (by norm_num)
    (by norm_num)

/-! ### LinearCount — src/cardinality/linear_count.rs and src/linear_count.rs

Both files have the identical `insert`: hash the item, reduce modulo
`bits.len()` (a panic when the bitmap is empty), `put` the bit and, when the
bit was previously unset (`put` returned `false`), execute `zeros += 1`. -/

structure LC where
  bits : List Bool
  zeros : ℕ
deriving DecidableEq

/-- Model of `LinearCount::new(num_bits)`: empty bitmap, `zeros = num_bits`. -/
def lcNew (numBits : ℕ) : LC := ⟨List.replicate numBits false, numBits⟩

/-- Model of `LinearCount::insert` for an item with 64-bit hash `hash`. -/
def lcInsert (lc : LC) (hash : ℕ) : Option LC :=
  if lc.bits.length = 0 then none
  else
    let index := hash % lc.bits.length
    let prev := lc.bits.getD index false
    let bits := lc.bits.set index true
    some (if prev then ⟨bits, lc.zeros⟩ else ⟨bits, lc.zeros + 1⟩)

/-- C4 (code bug): `LinearCount::insert` increments the zero-counter when
the targeted bit was previously unset — `if !self.bits.put(index) {
self.zeros += 1; }` — instead of decrementing it.  On a fresh 8-bit counter,
inserting an item hashing to bit 3 (previously unset) leaves `zeros = 9`,
not the claimed 7, so the counter grows instead of monotonically
decreasing. -/
theorem linear_count_insert_increments_zeros :
    lcInsert (lcNew 8) 3 = some ⟨(List.replicate 8 false).set 3 true, 9⟩ := by
  decide

/-! ### CountMinSketch — src/cms.rs

A `width × depth` grid of `u32` counters stored row-major
(`idx = width·row + hash`).  The counter store (a `Vec` whose indices are
always in bounds, since every hash is `< width` and every row `< depth`) is
modelled as a total function `ℕ → ℕ`.  `increment` walks the `depth`
hash values of the item (the shared `Hashes` sequence with modulus `width`)
and adds the count to one counter per row with wrapping `u32` arithmetic;
`count` takes the minimum over the same positions (`min().unwrap()`, a panic
on an empty iterator).  Items are identified by their two base hashes via the
injected family `bH : item → salt → u64`. -/

/-- The per-row hash values of an item: `Hashes::new(item, width, depth, _)`. -/
def cmsHashes (bH : ℕ → ℕ → ℕ) (w d : ℕ) (x : ℕ) : List ℕ :=
  hashesList (bH x 1) (bH x 2) w d

/-- The enumerated update loop of `increment` with wrapping `u32` adds:
for each remaining hash `h` at row `row`, bump counter `w·row + h`. -/
def updRowsW (w c : ℕ) : List ℕ → ℕ → (ℕ → ℕ) → (ℕ → ℕ)
  | [], _, f => f
  | h :: hs, row, f =>
    updRowsW w c hs (row + 1)
      (fun j => if j = w * row + h then (f j + c) % U32 else f j)

/-- The same update loop with unbounded (ideal, non-wrapping) counters. -/
def updRowsI (w c : ℕ) : List ℕ → ℕ → (ℕ → ℕ) → (ℕ → ℕ)
  | [], _, f => f
  | h :: hs, row, f =>
    updRowsI w c hs (row + 1)
      (fun j => if j = w * row + h then f j + c else f j)

/-- Model of `CountMinSketch::increment(item, count)` on counter state `cnt`. -/
def cmsIncrement (w d : ℕ) (bH : ℕ → ℕ → ℕ) (cnt : ℕ → ℕ) (x c : ℕ) :
    ℕ → ℕ :=
  updRowsW w c (cmsHashes bH w d x) 0 cnt

/-- Ideal-counter variant of `increment`. -/
def cmsIncrementI (w d : ℕ) (bH : ℕ → ℕ → ℕ) (cnt : ℕ → ℕ) (x c : ℕ) :
    ℕ → ℕ :=
  updRowsI w c (cmsHashes bH w d x) 0 cnt

/-- Run a sequence of increments `(item, count)` from counter state `f`. -/
def cmsRunFromW (w d : ℕ) (bH : ℕ → ℕ → ℕ) : List (ℕ × ℕ) → (ℕ → ℕ) → (ℕ → ℕ)
  | [], f => f
  | e :: s, f => cmsRunFromW w d bH s (cmsIncrement w d bH f e.1 e.2)

/-- Ideal-counter variant of a run. -/
def cmsRunFromI (w d : ℕ) (bH : ℕ → ℕ → ℕ) : List (ℕ × ℕ) → (ℕ → ℕ) → (ℕ → ℕ)
  | [], f => f
  | e :: s, f => cmsRunFromI w d bH s (cmsIncrementI w d bH f e.1 e.2)

/-- The counter state after a sequence of increments on a fresh sketch. -/
def cmsRun (w d : ℕ) (bH : ℕ → ℕ → ℕ) (seq : List (ℕ × ℕ)) : ℕ → ℕ :=
  cmsRunFromW w d bH seq (fun _ => 0)

/-- Ideal-counter state after the same sequence on a fresh sketch. -/
def cmsRunI (w d : ℕ) (bH : ℕ → ℕ → ℕ) (seq : List (ℕ × ℕ)) : ℕ → ℕ :=
  cmsRunFromI w d bH seq (fun _ => 0)

/-- Model of `Iterator::min()`: `none` on an empty list. -/
def listMin : List ℕ → Option ℕ
  | [] => none
  | x :: xs => some (xs.foldl Nat.min x)

/-- The counter values of an item read row by row. -/
def rowVals (w : ℕ) (cnt : ℕ → ℕ) : List ℕ → ℕ → List ℕ
  | [], _ => []
  | h :: hs, row => cnt (w * row + h) :: rowVals w cnt hs (row + 1)

/-- Model of `CountMinSketch::count(item)`: minimum of the item's row counters. -/
def cmsCount (w d : ℕ) (bH : ℕ → ℕ → ℕ) (cnt : ℕ → ℕ) (x : ℕ) : Option ℕ :=
  listMin (rowVals w cnt (cmsHashes bH w d x) 0)

/-- The exact frequency of item `q` in an increment sequence. -/
def trueFreq (q : ℕ) (seq : List (ℕ × ℕ)) : ℕ :=
  (seq.map fun e => if e.1 = q then e.2 else 0).sum

/-- C5 counterexample: with `width = depth = 1` and a constant hash family,
incrementing the same item by `2^32 - 1` and then by 1 wraps its counter to
0, so `count` returns 0 while the true frequency is `2^32`: the unqualified
"never underestimates" claim is false because counters are wrapping `u32`
values (the wrap is the documented behaviour of the code, spec section 7). -/
theorem cms_wrap_underestimates :
    cmsCount 1 1 (fun _ _ => 0)
        (cmsRun 1 1 (fun _ _ => 0) [(7, U32 - 1), (7, 1)]) 7 = some 0 ∧
      trueFreq 7 [(7, U32 - 1), (7, 1)] = U32 := by
  constructor
  · rfl
  · decide

/-- Wrapping counters are the ideal counters reduced `mod 2^32`, pointwise,
through one update loop. -/
theorem updRows_mod (w c : ℕ) :
    ∀ (hs : List ℕ) (row : ℕ) (f g : ℕ → ℕ),
      (∀ j, f j = g j % U32) →
      ∀ j, updRowsW w c hs row f j = updRowsI w c hs row g j % U32 := by
  intro hs
  induction hs with
  | nil => intro row f g hrel j; exact hrel j
  | cons h hs ih =>
    intro row f g hrel j
    apply ih
    intro j'
    by_cases hj : j' = w * row + h
    · simp only [hj, if_pos rfl, hrel]
      exact Nat.mod_add_mod _ _ _
    · simp only [if_neg hj]
      exact hrel j'

/-- One ideal update loop never decreases any counter. -/
theorem updRowsI_mono (w c : ℕ) :
    ∀ (hs : List ℕ) (row : ℕ) (f : ℕ → ℕ) (j : ℕ),
      f j ≤ updRowsI w c hs row f j := by
  intro hs
  induction hs with
  | nil => intro row f j; exact le_rfl
  | cons h hs ih =>
    intro row f j
    refine le_trans ?_ (ih (row + 1) _ j)
    by_cases hj : j = w * row + h
    · simp [hj]
    · simp [hj]

/-- If row `i` of the remaining hashes maps to counter `j`, one ideal update
loop adds at least `c` to counter `j`. -/
theorem updRowsI_hit (w c : ℕ) :
    ∀ (hs : List ℕ) (i row : ℕ) (f : ℕ → ℕ), i < hs.length →
      f (w * (row + i) + hs.getD i 0) + c ≤
        updRowsI w c hs row f (w * (row + i) + hs.getD i 0) := by
  intro hs
  induction hs with
  | nil => intro i row f hi; simp at hi
  | cons h hs ih =>
    intro i row f hi
    match i with
    | 0 =>
      simp only [List.getD_cons_zero, Nat.add_zero]
      refine le_trans ?_ (updRowsI_mono w c hs (row + 1) _ _)
      simp
    | i + 1 =>
      simp only [List.getD_cons_succ]
      have e : w * (row + (i + 1)) + hs.getD i 0 =
          w * ((row + 1) + i) + hs.getD i 0 := by ring_nf
      rw [e]
      refine le_trans ?_ (ih i (row + 1) _ (by simpa using hi))
      split
      · exact Nat.le_add_right _ _
      · exact le_rfl

/-- If no row of the remaining hashes maps to counter `j`, one wrapping
update loop leaves counter `j` unchanged. -/
theorem updRowsW_untouched (w c : ℕ) :
    ∀ (hs : List ℕ) (row : ℕ) (f : ℕ → ℕ) (j : ℕ),
      (∀ i, i < hs.length → w * (row + i) + hs.getD i 0 ≠ j) →
      updRowsW w c hs row f j = f j := by
  intro hs
  induction hs with
  | nil => intro row f j _; rfl
  | cons h hs ih =>
    intro row f j hmiss
    have h0 : w * row + h ≠ j := by
      have := hmiss 0 (by simp)
      simpa using this
    rw [updRowsW, ih (row + 1) _ j ?_]
    · show (if j = w * row + h then (f j + c) % U32 else f j) = f j
      rw [if_neg (Ne.symm h0)]
    · intro i hi
      have := hmiss (i + 1) (by simpa using hi)
      simpa [Nat.add_right_comm row 1 i] using this

/-- Wrapping counters are ideal counters `mod 2^32` through a whole run. -/
theorem cmsRunFrom_mod (w d : ℕ) (bH : ℕ → ℕ → ℕ) :
    ∀ (seq : List (ℕ × ℕ)) (f g : ℕ → ℕ),
      (∀ j, f j = g j % U32) →
      ∀ j, cmsRunFromW w d bH seq f j = cmsRunFromI w d bH seq g j % U32 := by
  intro seq
  induction seq with
  | nil => intro f g hrel j; exact hrel j
  | cons e s ih =>
    intro f g hrel j
    exact ih _ _ (updRows_mod w e.2 (cmsHashes bH w d e.1) 0 f g hrel) j

theorem cmsRun_mod (w d : ℕ) (bH : ℕ → ℕ → ℕ) (seq : List (ℕ × ℕ)) (j : ℕ) :
    cmsRun w d bH seq j = cmsRunI w d bH seq j % U32 := by
  show cmsRunFromW w d bH seq (fun _ => 0) j =
    cmsRunFromI w d bH seq (fun _ => 0) j % U32
  exact cmsRunFrom_mod w d bH seq (fun _ => 0) (fun _ => 0)
    (fun _ => (Nat.zero_mod _).symm) j

/-- An ideal run never decreases any counter. -/
theorem cmsRunFromI_mono (w d : ℕ) (bH : ℕ → ℕ → ℕ) :
    ∀ (seq : List (ℕ × ℕ)) (f : ℕ → ℕ) (j : ℕ),
      f j ≤ cmsRunFromI w d bH seq f j := by
  intro seq
  induction seq with
  | nil => intro f j; exact le_rfl
  | cons e s ih =>
    intro f j
    exact le_trans (updRowsI_mono w e.2 (cmsHashes bH w d e.1) 0 f j) (ih _ j)

/-- Over an ideal run, the counter at any of `q`'s row positions grows by at
least the true frequency of `q`. -/
theorem cmsRunFromI_lower (w d : ℕ) (bH : ℕ → ℕ → ℕ) (q i : ℕ)
    (hi : i < (cmsHashes bH w d q).length) :
    ∀ (seq : List (ℕ × ℕ)) (f : ℕ → ℕ),
      f (w * i + (cmsHashes bH w d q).getD i 0) + trueFreq q seq ≤
        cmsRunFromI w d bH seq f (w * i + (cmsHashes bH w d q).getD i 0) := by
  intro seq
  induction seq with
  | nil => intro f; simp [trueFreq, cmsRunFromI]
  | cons e s ih =>
    intro f
    have hfreq : trueFreq q (e :: s) =
        (if e.1 = q then e.2 else 0) + trueFreq q s := by
      simp [trueFreq]
    rw [hfreq]
    by_cases hq : e.1 = q
    · subst hq
      have hit := updRowsI_hit w e.2 (cmsHashes bH w d e.1) i 0 f hi
      simp only [Nat.zero_add] at hit
      calc f (w * i + (cmsHashes bH w d e.1).getD i 0) +
            ((if e.1 = e.1 then e.2 else 0) + trueFreq e.1 s)
          = (f (w * i + (cmsHashes bH w d e.1).getD i 0) + e.2) +
              trueFreq e.1 s := by simp; ring
        _ ≤ _ := le_trans (Nat.add_le_add_right hit _) (ih _)
    · have mono := updRowsI_mono w e.2 (cmsHashes bH w d e.1) 0 f
        (w * i + (cmsHashes bH w d q).getD i 0)
      simp only [hq, if_false, Nat.zero_add]
      exact le_trans (Nat.add_le_add_right mono _) (ih _)

theorem rowVals_length (w : ℕ) (cnt : ℕ → ℕ) :
    ∀ (hs : List ℕ) (row : ℕ), (rowVals w cnt hs row).length = hs.length := by
  intro hs
  induction hs with
  | nil => intro row; rfl
  | cons h hs ih => intro row; simp [rowVals, ih]

theorem rowVals_forall (w : ℕ) (cnt : ℕ → ℕ) (P : ℕ → Prop) :
    ∀ (hs : List ℕ) (row : ℕ),
      (∀ i, i < hs.length → P (cnt (w * (row + i) + hs.getD i 0))) →
      ∀ x ∈ rowVals w cnt hs row, P x := by
  intro hs
  induction hs with
  | nil => intro row _ x hx; simp [rowVals] at hx
  | cons h hs ih =>
    intro row hall x hx
    rcases List.mem_cons.mp hx with h' | h'
    · subst h'
      have := hall 0 (by simp)
      simpa using this
    · refine ih (row + 1) ?_ x h'
      intro i hi
      have := hall (i + 1) (by simpa using hi)
      simpa [Nat.add_right_comm row 1 i] using this

theorem foldlMin_le (a : ℕ) :
    ∀ (xs : List ℕ) (acc : ℕ), a ≤ acc → (∀ x ∈ xs, a ≤ x) →
      a ≤ xs.foldl Nat.min acc := by
  intro xs
  induction xs with
  | nil => intro acc ha _; exact ha
  | cons x xs ih =>
    intro acc ha hall
    refine ih (Nat.min acc x) (Nat.le_min.mpr ⟨ha, hall x (by simp)⟩) ?_
    intro y hy
    exact hall y (List.mem_cons_of_mem x hy)

theorem le_listMin (a : ℕ) (l : List ℕ) (v : ℕ)
    (hall : ∀ x ∈ l, a ≤ x) (hv : listMin l = some v) : a ≤ v := by
  match l with
  | [] => simp [listMin] at hv
  | x :: xs =>
    have : v = xs.foldl Nat.min x := by
      simpa [listMin] using hv.symm
    rw [this]
    exact foldlMin_le a xs x (hall x (by simp))
      (fun y hy => hall y (List.mem_cons_of_mem x hy))

theorem foldlMin_zero : ∀ xs : List ℕ, xs.foldl Nat.min 0 = 0 := by
  intro xs
  induction xs with
  | nil => rfl
  | cons x xs ih => simpa [Nat.zero_min] using ih

theorem listMin_isSome (l : List ℕ) (h : l ≠ []) : ∃ v, listMin l = some v := by
  match l with
  | [] => exact absurd rfl h
  | x :: xs => exact ⟨xs.foldl Nat.min x, rfl⟩

theorem listMin_all_zero (l : List ℕ) (h : l ≠ []) (h0 : ∀ x ∈ l, x = 0) :
    listMin l = some 0 := by
  match l with
  | [] => exact absurd rfl h
  | x :: xs =>
    have hx : x = 0 := h0 x (by simp)
    simp [listMin, hx, foldlMin_zero]

/-- Row-major positions are injective when both column values are below the
width. -/
theorem rowPos_inj (w i i' h h' : ℕ) (hw : 0 < w) (hh : h < w) (hh' : h' < w)
    (e : w * i' + h' = w * i + h) : i' = i ∧ h' = h := by
  have hdiv : i' = i := by
    have d1 : (w * i' + h') / w = i' := by
      rw [Nat.mul_add_div hw, Nat.div_eq_of_lt hh']
      omega
    have d2 : (w * i + h) / w = i := by
      rw [Nat.mul_add_div hw, Nat.div_eq_of_lt hh]
      omega
    rw [← d1, ← d2, e]
  refine ⟨hdiv, ?_⟩
  rw [hdiv] at e
  omega

/-- A whole wrapping run leaves a counter untouched if no row position of
any incremented item maps to it. -/
theorem cmsRunFromW_untouched (w d : ℕ) (bH : ℕ → ℕ → ℕ) (j : ℕ) :
    ∀ (seq : List (ℕ × ℕ)) (f : ℕ → ℕ),
      (∀ e ∈ seq, ∀ i, i < (cmsHashes bH w d e.1).length →
        w * i + (cmsHashes bH w d e.1).getD i 0 ≠ j) →
      cmsRunFromW w d bH seq f j = f j := by
  intro seq
  induction seq with
  | nil => intro f _; rfl
  | cons e s ih =>
    intro f hmiss
    rw [cmsRunFromW, ih _ (fun e' he' => hmiss e' (List.mem_cons_of_mem e he'))]
    apply updRowsW_untouched
    intro i hi
    have := hmiss e (by simp) i hi
    simpa using this

/-- Entries of an item's hash list are below the width. -/
theorem cmsHashes_getD_lt (bH : ℕ → ℕ → ℕ) (w d : ℕ) (x i : ℕ) (hw : 0 < w)
    (hi : i < (cmsHashes bH w d x).length) :
    (cmsHashes bH w d x).getD i 0 < w := by
  have hmem : (cmsHashes bH w d x).getD i 0 ∈ cmsHashes bH w d x := by
    rw [List.getD_eq_getElem (cmsHashes bH w d x) 0 hi]
    exact List.getElem_mem hi
  exact hashesList_mem_lt _ _ _ _ hw _ hmem

/-- C5 (amended): provided no `u32` counter wraps over the run (the ideal
accumulated totals all stay below 2^32), `count(item)` is at least the true
frequency of the item, and an item that was never incremented counts 0
unless one of its `depth` row positions collides with an incremented item's
position in the same row. -/
theorem cms_count_ge_true_frequency (w d : ℕ) (bH : ℕ → ℕ → ℕ)
    (seq : List (ℕ × ℕ)) (q : ℕ) (hw : 0 < w) (hd : 0 < d)
    (hnw : ∀ j, j < w * d → cmsRunI w d bH seq j < U32) :
    ∃ v, cmsCount w d bH (cmsRun w d bH seq) q = some v ∧
      trueFreq q seq ≤ v ∧
      ((∀ e ∈ seq, e.1 ≠ q) →
       (∀ e ∈ seq, ∀ i, i < d →
         (cmsHashes bH w d e.1).getD i 0 ≠ (cmsHashes bH w d q).getD i 0) →
       v = 0) := by
  have hlen : (cmsHashes bH w d q).length = d := hashesList_length _ _ _ _
  have hnil : rowVals w (cmsRun w d bH seq) (cmsHashes bH w d q) 0 ≠ [] := by
    intro hcon
    have := rowVals_length w (cmsRun w d bH seq) (cmsHashes bH w d q) 0
    rw [hcon, hlen] at this
    simp at this
    omega
  obtain ⟨v, hv⟩ := listMin_isSome _ hnil
  refine ⟨v, hv, ?_, ?_⟩
  · refine le_listMin _ _ _ ?_ hv
    apply rowVals_forall
    intro i hi
    rw [hlen] at hi
    have hcol : (cmsHashes bH w d q).getD i 0 < w :=
      cmsHashes_getD_lt bH w d q i hw (by omega)
    have hidx : w * (0 + i) + (cmsHashes bH w d q).getD i 0 < w * d := by
      simp only [Nat.zero_add]
      calc w * i + (cmsHashes bH w d q).getD i 0 < w * i + w := by omega
        _ = w * (i + 1) := by ring
        _ ≤ w * d := Nat.mul_le_mul_left w (by omega)
    rw [cmsRun_mod, Nat.mod_eq_of_lt (hnw _ hidx)]
    have lower := cmsRunFromI_lower w d bH q i (by omega) seq (fun _ => 0)
    simpa using lower
  · intro hnotq hnocol
    have hzero : ∀ x ∈ rowVals w (cmsRun w d bH seq) (cmsHashes bH w d q) 0,
        x = 0 := by
      apply rowVals_forall
      intro i hi
      rw [hlen] at hi
      simp only [Nat.zero_add]
      have huntouched := cmsRunFromW_untouched w d bH
        (w * i + (cmsHashes bH w d q).getD i 0) seq (fun _ => 0) ?_
      · exact huntouched
      · intro e he i' hi'
        intro eq
        have hle : (cmsHashes bH w d e.1).length = d := hashesList_length _ _ _ _
        have h1 : (cmsHashes bH w d e.1).getD i' 0 < w :=
          cmsHashes_getD_lt bH w d e.1 i' hw hi'
        have h2 : (cmsHashes bH w d q).getD i 0 < w :=
          cmsHashes_getD_lt bH w d q i hw (by omega)
        obtain ⟨hii, hhh⟩ := rowPos_inj w i i' _ _ hw h2 h1 eq
        subst hii
        exact hnocol e he i' (by omega) hhh
    have := listMin_all_zero _ hnil hzero
    rw [hv] at this
    exact Option.some_inj.mp this

/-- Witness for the amended C5 at a concrete sketch
(width 2, depth 2, one increment of item 5 by 3). -/
theorem cms_count_ge_true_frequency_witness :
    ∃ v, cmsCount 2 2 (fun x s => x + s)
        (cmsRun 2 2 (fun x s => x + s) [(5, 3)]) 5 = some v ∧
      trueFreq 5 [(5, 3)] ≤ v ∧
      ((∀ e ∈ [((5 : ℕ), (3 : ℕ))], e.1 ≠ 5) →
       (∀ e ∈ [((5 : ℕ), (3 : ℕ))], ∀ i, i < 2 →
         (cmsHashes (fun x s => x + s) 2 2 e.1).getD i 0 ≠
           (cmsHashes (fun x s => x + s) 2 2 5).getD i 0) →
       v = 0) :=
  cms_count_ge_true_frequency 2 2 (fun x s => x + s) [(5, 3)] 5 (by decide)
    (by decide) (by decide)

/-! ### CuckooFilter — src/set_membership/cuckoo.rs

The fingerprint table (`BitVec<u32, F>`) is modelled as a flat list of
fingerprint slots (`num_buckets · bucket_size` entries, 0 meaning empty);
the packed-bit representation is treated in the `bvGet`/`bvSet` section.
The injected random source is a stream `rng : ℕ → ℕ` with a cursor
`rngIdx`; `self.rng.gen::<usize>()` reads `rng rngIdx` and advances the
cursor.  Items enter through their 64-bit hash. -/

/-- The MurmurHash2 multiplicative constant used by `alt_index`. -/
def murmurConst : ℕ := 0x5bd1e995

/-- Model of `CuckooFilter::alt_index`:
`(index ^ (tag as usize).wrapping_mul(0x5bd1e995)) & (num_buckets - 1)`. -/
def altIndex (numBuckets index tag : ℕ) : ℕ :=
  (index ^^^ ((tag * murmurConst) % U64)) &&& (numBuckets - 1)

structure Cuckoo where
  table : List ℕ
  numBuckets : ℕ
  bucketSize : ℕ
  rng : ℕ → ℕ
  rngIdx : ℕ

/-- Model of `CuckooFilter::new`: asserts `num_buckets > 1`, `num_buckets` a power of
two and `bucket_size > 0` (Rust checks `is_power_of_two` via the popcount;
`n & (n - 1) = 0` for `n > 0` is equivalent), then allocates an all-empty
table of `num_buckets · bucket_size` slots. -/
def cuckooNew (numBuckets bucketSize : ℕ) (rng : ℕ → ℕ) : Option Cuckoo :=
  if 1 < numBuckets ∧ numBuckets &&& (numBuckets - 1) = 0 ∧ 0 < bucketSize then
    some ⟨List.replicate (numBuckets * bucketSize) 0, numBuckets, bucketSize,
      rng, 0⟩
  else none

/-- Model of `CuckooFilter::index_and_tag`: primary bucket from the high 32 hash bits,
tag from the low `F` bits, coerced non-zero. -/
def indexAndTag (F : ℕ) (c : Cuckoo) (hash : ℕ) : ℕ × ℕ :=
  let index := (hash >>> 32) &&& (c.numBuckets - 1)
  let tag := hash &&& (2 ^ F - 1)
  (index, tag + (if tag = 0 then 1 else 0))

/-- Model of `CuckooFilter::contains_hashed`: tag present in any slot of either
candidate bucket. -/
def containsHashed (c : Cuckoo) (i1 i2 tag : ℕ) : Bool :=
  [i1, i2].any fun index =>
    (List.range c.bucketSize).any fun entry =>
      c.table.getD (index * c.bucketSize + entry) 0 == tag

/-- Model of `CuckooFilter::try_insert`: place the tag in the first empty slot of the
bucket, if any. -/
def tryInsert (c : Cuckoo) (index tag : ℕ) : Option Cuckoo :=
  ((List.range c.bucketSize).find? fun entry =>
      c.table.getD (index * c.bucketSize + entry) 0 == 0).map fun entry =>
    { c with table := c.table.set (index * c.bucketSize + entry) tag }

/-- Model of `CuckooFilter::maybe_evict_and_insert`: try a free slot first; otherwise
overwrite a random slot of the bucket with the tag and hand back the evicted
occupant. -/
def maybeEvictAndInsert (c : Cuckoo) (index tag : ℕ) : Cuckoo × Option ℕ :=
  match tryInsert c index tag with
  | some c' => (c', none)
  | none =>
    let entry := c.rng c.rngIdx % c.bucketSize
    let address := index * c.bucketSize + entry
    let old := c.table.getD address 0
    ({ c with table := c.table.set address tag, rngIdx := c.rngIdx + 1 },
      some old)

/-- The eviction loop of `insert` (`for _ in 0..MAX_EVICTIONS`), with the
remaining iteration count as fuel.  Note that the code keeps re-placing the
original `tag` and ignores the evicted occupant returned by
`maybe_evict_and_insert`.  The second component reports success
(`Ok`/`Err NotEnoughSpace`). -/
def evictLoop : ℕ → Cuckoo → ℕ → ℕ → Cuckoo × Bool
  | 0, c, _, _ => (c, false)
  | fuel + 1, c, index, tag =>
    let index' := altIndex c.numBuckets index tag
    match maybeEvictAndInsert c index' tag with
    | (c', none) => (c', true)
    | (c', some _) => evictLoop fuel c' index' tag

/-- The constant `MAX_EVICTIONS`. -/
def cuckooMaxEvictions : ℕ := 500

/-- Model of `CuckooFilter::insert` for an item with 64-bit hash `hash`; the `Bool`
is `true` for `Ok(())` and `false` for `Err(NotEnoughSpace)`, and the state
reflects the mutations performed either way. -/
def cuckooInsert (F : ℕ) (c : Cuckoo) (hash : ℕ) : Cuckoo × Bool :=
  let it := indexAndTag F c hash
  let i2 := altIndex c.numBuckets it.1 it.2
  if containsHashed c it.1 i2 it.2 then (c, true)
  else
    match tryInsert c it.1 it.2 with
    | some c' => (c', true)
    | none => evictLoop cuckooMaxEvictions c it.1 it.2

/-- Model of `CuckooFilter::contains` for an item with 64-bit hash `hash`. -/
def cuckooContains (F : ℕ) (c : Cuckoo) (hash : ℕ) : Bool :=
  let it := indexAndTag F c hash
  containsHashed c it.1 (altIndex c.numBuckets it.1 it.2) it.2

/-- The spec's own capacity scenario: `num_buckets = 2`, `bucket_size = 1`,
fingerprint width 4, a constant-zero random source. -/
def demoC0 : Cuckoo := ⟨[0, 0], 2, 1, fun _ => 0, 0⟩

/-- State after inserting the item with hash 1 (bucket 0, tag 1). -/
def demoC1 : Cuckoo := (cuckooInsert 4 demoC0 1).1

/-- State after also inserting the item with hash `2^32 + 2`
(bucket 1, tag 2). -/
def demoC2 : Cuckoo := (cuckooInsert 4 demoC1 (2 ^ 32 + 2)).1

/-- State after the failing insert of the item with hash 3
(bucket 0, tag 3). -/
def demoC3 : Cuckoo := (cuckooInsert 4 demoC2 3).1

set_option maxRecDepth 20000 in
/-- C1 (code bug): the eviction loop deletes stored fingerprints.
`maybe_evict_and_insert` returns the evicted occupant, but `insert` ignores
it and keeps re-placing the same new tag, so every evicted tag is dropped.
On the spec's own scenario (2 buckets of size 1): items with hashes 1 and
`2^32 + 2` insert fine and are contained; the insert of hash 3 fails with
the capacity error, but during its evictions it overwrites both stored tags
with its own (final table `[3, 3]`), after which `contains` is `false` for
both previously inserted items — refuting "no tag is ever deleted during
eviction" and "previously inserted items remain findable". -/
theorem cuckoo_eviction_drops_stored_tags :
    (cuckooNew 2 1 (fun _ => 0)).map Cuckoo.table = some [0, 0] ∧
    (cuckooInsert 4 demoC0 1).2 = true ∧
    (cuckooInsert 4 demoC1 (2 ^ 32 + 2)).2 = true ∧
    cuckooContains 4 demoC2 1 = true ∧
    cuckooContains 4 demoC2 (2 ^ 32 + 2) = true ∧
    (cuckooInsert 4 demoC2 3).2 = false ∧
    demoC3.table = [3, 3] ∧
    cuckooContains 4 demoC3 1 = false ∧
    cuckooContains 4 demoC3 (2 ^ 32 + 2) = false := by
  decide

/-- C9: the alternate-bucket map is self-inverse: for a power-of-two bucket
count `> 1` and any in-range index, `alt_index(alt_index(i, tag), tag) = i`
(xor with a fixed value, masked to the bucket range). -/
theorem cuckoo_alt_index_self_inverse (numBuckets k index tag : ℕ)
    (hpow : numBuckets = 2 ^ k) (hgt : 1 < numBuckets)
    (hidx : index < numBuckets) :
    altIndex numBuckets (altIndex numBuckets index tag) tag = index := by
  subst hpow
  simp only [altIndex]
  rw [Nat.and_xor_distrib_right, Nat.and_assoc, Nat.and_self,
    Nat.and_xor_distrib_right, Nat.xor_assoc, Nat.xor_self, Nat.xor_zero,
    Nat.and_pow_two_sub_one_eq_mod]
  exact Nat.mod_eq_of_lt hidx

/-- Witness for C9 at `num_buckets = 4`, `index = 2`, `tag = 7`. -/
theorem cuckoo_alt_index_self_inverse_witness :
    altIndex 4 (altIndex 4 2 7) 7 = 2 :=
  cuckoo_alt_index_self_inverse 4 2 2 7 (by decide) (by decide) (by decide)

/-! ### HyperLogLog — src/cardinality/hll.rs

`new(precision ∈ [4, 18])` allocates `2^precision` six-bit registers
(`Registers<6>`), modelled abstractly as a list of register values whose
length plays the role of `Registers::count` (the packed representation is
the `bvGet`/`bvSet` concern).  `insert` hashes the item to 64 bits, takes
the top `precision` bits as the register index and
`leading_zeros((hash << precision) | (1 << (precision - 1))) + 1` as the
value, then calls `update_max`, which asserts `index < count`. -/

/-- Base-2 logarithm, with fuel so that it reduces by kernel evaluation;
`log2fuel 64 x` is the floor base-2 logarithm for every `x < 2^64`. -/
def log2fuel : ℕ → ℕ → ℕ
  | 0, _ => 0
  | fuel + 1, n => if n < 2 then 0 else log2fuel fuel (n / 2) + 1

/-- Model of `u64::leading_zeros`: 64 for 0, otherwise 63 minus the floor base-2
logarithm. -/
def u64lz (x : ℕ) : ℕ := if x = 0 then 64 else 63 - log2fuel 64 x

/-- The register index computed by `insert`: `hash >> (64 - precision)`. -/
def hllIndex (precision hash : ℕ) : ℕ := hash >>> (64 - precision)

/-- The register value computed by `insert`:
`((hash << precision) | (1 << (precision - 1))).leading_zeros() + 1`. -/
def hllRho (precision hash : ℕ) : ℕ :=
  u64lz ((hash <<< precision) % U64 ||| 2 ^ (precision - 1)) + 1

/-- Model of `Registers::update_max`: asserts the index is in bounds (`none` = panic),
then raises the register to `value` if larger (`set_unchecked` masks the
stored value to six bits). -/
def updateMax (regs : List ℕ) (index value : ℕ) : Option (List ℕ) :=
  if index < regs.length then
    some (if regs.getD index 0 < value then regs.set index (value &&& 63)
      else regs)
  else none

/-- Model of `HyperLogLog::insert` for an item with 64-bit hash `hash`. -/
def hllInsert (precision : ℕ) (regs : List ℕ) (hash : ℕ) : Option (List ℕ) :=
  updateMax regs (hllIndex precision hash) (hllRho precision hash)

/-- C10: for every precision in `[4, 18]` and every 64-bit hash, the register
index `hash >> (64 - precision)` is below the register count `2^precision`,
so the bounds assertion in `update_max` never fires and `insert` cannot
panic there. -/
theorem hll_insert_index_in_bounds (precision hash : ℕ) (regs : List ℕ)
    (hp1 : 4 ≤ precision) (hp2 : precision ≤ 18) (hh : hash < U64)
    (hlen : regs.length = 2 ^ precision) :
    (hllInsert precision regs hash).isSome = true := by
  have hidx : hllIndex precision hash < 2 ^ precision := by
    rw [hllIndex, Nat.shiftRight_eq_div_pow]
    refine (Nat.div_lt_iff_lt_mul (Nat.pos_pow_of_pos _ (by norm_num))).mpr ?_
    rw [← pow_add, show precision + (64 - precision) = 64 from by omega]
    simpa [U64] using hh
  have hbound : hllIndex precision hash < regs.length := by
    rw [hlen]; exact hidx
  simp [hllInsert, updateMax, hbound]

/-- Witness for C10 at precision 4, hash 12345, a fresh register file. -/
theorem hll_insert_index_in_bounds_witness :
    (hllInsert 4 (List.replicate 16 0) 12345).isSome = true :=
  hll_insert_index_in_bounds 4 12345 (List.replicate 16 0) (by decide)
    (by decide) (by decide) (by decide)

/-! ### HyperLogLog::count — src/cardinality/hll.rs

The fold over the registers accumulates the number of zero registers and
`Σ 1/(1 << register)`, where the shifted `1` is an `i32` literal: for a
register value `r ≤ 30` the term is `2^r`; for `r = 31` the shift lands in
the sign bit and the term is `-2^31`; for `r ≥ 32` the shift amount reaches
the `i32` width and panics in a debug build (`none`).  The remaining
arithmetic is over ℝ. -/

/-- The `f64` value of `(1i32 << register)`. -/
noncomputable def regTerm (r : ℕ) : Option ℝ :=
  if r ≤ 30 then some ((2 : ℝ) ^ r)
  else if r = 31 then some (-(2 : ℝ) ^ 31)
  else none

/-- One step of the `(v, z)` fold in `count`. -/
noncomputable def hllFoldF : Option (ℕ × ℝ) → ℕ → Option (ℕ × ℝ) :=
  fun acc r => acc.bind fun vz => (regTerm r).map fun t =>
    (vz.1 + if r = 0 then 1 else 0, vz.2 + 1 / t)

/-- The `(v, z)` fold of `count` over all registers. -/
noncomputable def hllFold (regs : List ℕ) : Option (ℕ × ℝ) :=
  regs.foldl hllFoldF (some (0, 0))

/-- Model of `HyperLogLog::alpha`, keyed on the register count. -/
noncomputable def alphaHLL (m : ℕ) : ℝ :=
  if 128 ≤ m then 0.7213 / (1 + 1.079 / (m : ℝ))
  else if m = 64 then 0.709
  else if m = 32 then 0.697
  else 0.673

/-- Model of `HyperLogLog::count`. -/
noncomputable def hllCount (regs : List ℕ) : Option ℝ :=
  (hllFold regs).map fun vz =>
    let m : ℝ := regs.length
    let estimate := alphaHLL regs.length * m * m * vz.2
    let two32 : ℝ := 2 ^ 32
    if estimate ≤ 2.5 * m ∧ 0 < vz.1 then m * Real.log (m / (vz.1 : ℝ))
    else if two32 / 30 < estimate then -two32 * Real.log (1 - estimate / two32)
    else estimate

theorem hllFoldF_none : ∀ l : List ℕ, l.foldl hllFoldF none = none := by
  intro l
  induction l with
  | nil => rfl
  | cons x xs ih => simpa [hllFoldF] using ih

/-- C6 (code bug): `count` evaluates `1. / (1 << register) as f64` with an
`i32` numeral, so a register value of 32 or more overflows the shift and
panics in a debug build.  Such values are reachable: inserting the item with
64-bit hash 0 into a fresh precision-4 filter stores
`rho = leading_zeros(1 << 3) + 1 = 61` in register 0, after which `count`
panics instead of returning the claimed bias-corrected estimate. -/
theorem hll_count_register_shift_overflows :
    hllInsert 4 (List.replicate 16 0) 0 = some (61 :: List.replicate 15 0) ∧
    hllCount (61 :: List.replicate 15 0) = none := by
  constructor
  · decide
  · have h61 : regTerm 61 = none := by norm_num [regTerm]
    simp [hllCount, hllFold, hllFoldF_none, hllFoldF, h61]

/-- Number of zero registers. -/
def zerosIn : List ℕ → ℕ
  | [] => 0
  | r :: rs => (if r = 0 then 1 else 0) + zerosIn rs

/-- The spec's `Σ 2^(-register)` over the registers. -/
noncomputable def sumInv : List ℕ → ℝ
  | [] => 0
  | r :: rs => ((2 : ℝ) ^ r)⁻¹ + sumInv rs

/-- The claim's alpha selection, written from the claim's words: 0.673 for
`m < 32`, 0.697 at `m = 32`, 0.709 at `m = 64`, `0.7213/(1 + 1.079/m)` for
`m ≥ 128` (for a power-of-two register count no other case arises; the last
branch is the catch-all). -/
noncomputable def specAlpha (m : ℕ) : ℝ :=
  if m < 32 then 0.673
  else if m = 32 then 0.697
  else if m = 64 then 0.709
  else 0.7213 / (1 + 1.079 / (m : ℝ))

/-- The claim's bias-corrected estimate, written from the claim's words:
`raw = α·m²·Σ 2^(-register)`; if `raw ≤ 2.5m` and some register is zero,
`m·ln(m/zeros)`; else if `raw > 2^32/30`, `-2^32·ln(1 - raw/2^32)`; else
`raw`. -/
noncomputable def specEstimate (regs : List ℕ) : ℝ :=
  let m : ℝ := regs.length
  let raw := specAlpha regs.length * m ^ 2 * sumInv regs
  if raw ≤ 2.5 * m ∧ 0 < zerosIn regs then m * Real.log (m / (zerosIn regs : ℝ))
  else if (2 : ℝ) ^ 32 / 30 < raw then
    -(2 : ℝ) ^ 32 * Real.log (1 - raw / 2 ^ 32)
  else raw

theorem hllFold_from (regs : List ℕ) (hsmall : ∀ r ∈ regs, r ≤ 30) :
    ∀ (v : ℕ) (z : ℝ),
      regs.foldl hllFoldF (some (v, z)) =
        some (v + zerosIn regs, z + sumInv regs) := by
  induction regs with
  | nil => intro v z; simp [zerosIn, sumInv]
  | cons r rs ih =>
    intro v z
    have hr : regTerm r = some ((2 : ℝ) ^ r) := by
      rw [regTerm, if_pos (hsmall r (by simp))]
    have hstep : hllFoldF (some (v, z)) r =
        some (v + (if r = 0 then 1 else 0), z + ((2 : ℝ) ^ r)⁻¹) := by
      simp [hllFoldF, hr, one_div]
    rw [List.foldl_cons, hstep,
      ih (fun x hx => hsmall x (List.mem_cons_of_mem r hx))]
    refine congrArg some (Prod.ext ?_ ?_)
    · show v + (if r = 0 then 1 else 0) + zerosIn rs = v + zerosIn (r :: rs)
      rw [zerosIn]
      omega
    · show z + ((2 : ℝ) ^ r)⁻¹ + sumInv rs = z + sumInv (r :: rs)
      rw [sumInv]
      ring

theorem alphaHLL_eq_specAlpha (p : ℕ) (hp : 4 ≤ p) :
    alphaHLL (2 ^ p) = specAlpha (2 ^ p) := by
  by_cases h7 : 7 ≤ p
  · have h128 : 128 ≤ 2 ^ p := by
      calc (128 : ℕ) = 2 ^ 7 := by norm_num
        _ ≤ 2 ^ p := Nat.pow_le_pow_right (by norm_num) h7
    rw [alphaHLL, if_pos h128, specAlpha, if_neg (by omega), if_neg (by omega),
      if_neg (by omega)]
  · have hlt : p < 7 := by omega
    interval_cases p <;> norm_num [alphaHLL, specAlpha]

/-- Supporting result for C6: whenever every register value is at most 30
(so the `i32` shift does not overflow), `count` returns exactly the claim's
bias-corrected estimate — same alpha selection, same raw formula, same
small- and large-range corrections with the same thresholds. -/
theorem hll_count_matches_spec_formula (regs : List ℕ) (p : ℕ)
    (hlen : regs.length = 2 ^ p) (hp : 4 ≤ p)
    (hsmall : ∀ r ∈ regs, r ≤ 30) :
    hllCount regs = some (specEstimate regs) := by
  have hfold : hllFold regs = some (zerosIn regs, sumInv regs) := by
    rw [hllFold, hllFold_from regs hsmall 0 0]
    simp
  rw [hllCount, hfold, Option.map_some']
  refine congrArg some ?_
  rw [specEstimate]
  have halpha : alphaHLL regs.length = specAlpha regs.length := by
    rw [hlen]
    exact alphaHLL_eq_specAlpha p hp
  have hraw : alphaHLL regs.length * (regs.length : ℝ) * (regs.length : ℝ) *
      sumInv regs =
      specAlpha regs.length * (regs.length : ℝ) ^ 2 * sumInv regs := by
    rw [halpha]
    ring
  simp only [hraw]
